import Mathlib

/-!
Verification of the base45-go codec.

The repository contains two complete implementations of the codec: one
referencing RFC 9285 and one referencing draft-faltstrom-base45-07.  Both are
embedded below.  Bytes and characters are modelled as natural numbers
(the byte value / the ASCII code); byte slices become lists of naturals;
Go errors become an explicit error type together with `Except`.
-/

namespace Base45

/-- The error values of the package: ErrEmptyInput, ErrInvalidEncodingCharacters,
ErrInvalidLength, ErrInvalidURLSafeEscaping, ErrInvalidEncodedDataOverflow. -/
inductive Base45Error where
  | ErrEmptyInput
  | ErrInvalidEncodingCharacters
  | ErrInvalidLength
  | ErrInvalidURLSafeEscaping
  | ErrInvalidEncodedDataOverflow
deriving DecidableEq, Repr

open Base45Error

/-- Alphabet defines the 45 usable characters for the base 45 encoding,
as ASCII codes: the digits 0-9 (48..57), the uppercase letters A-Z (65..90),
then space, dollar, percent, star, plus, hyphen, dot, slash, colon. -/
def Alphabet : List Nat :=
  [48, 49, 50, 51, 52, 53, 54, 55, 56, 57, 65, 66,
   67, 68, 69, 70, 71, 72, 73, 74, 75, 76, 77, 78,
   79, 80, 81, 82, 83, 84, 85, 86, 87, 88, 89, 90,
   32, 36, 37, 42, 43, 45, 46, 47, 58]

/-- bytes.IndexByte: the index of the first instance of c in l, or -1 if
c is not present in l. -/
def indexByte (l : List Nat) (c : Nat) : Int :=
  match l.findIdx? (fun a => a = c) with
  | some i => (i : Int)
  | none => -1

/-- encodeSingleByte takes in a byte and converts it to base 45:
a = c + 45*d, emitting the characters for c then d. -/
def encodeSingleByte (a : Nat) : List Nat :=
  [Alphabet.getD (a % 45) 0, Alphabet.getD (a / 45 % 45) 0]

/-- encodeTwoBytes takes two bytes (big-endian, so n = a*256 + b) and
converts it to base 45: n = c + d*45 + e*45*45, emitting c, d, e. -/
def encodeTwoBytes (a b : Nat) : List Nat :=
  [Alphabet.getD ((a * 256 + b) % 45) 0,
   Alphabet.getD ((a * 256 + b) / 45 % 45) 0,
   Alphabet.getD ((a * 256 + b) / (45 * 45) % 45) 0]

/-- Encode encodes the given bytes to base 45.  The Go loop reads chunks of
up to two bytes: a full pair goes through encodeTwoBytes, a trailing single
byte through encodeSingleByte, and the loop stops at EOF. -/
def Encode : List Nat → List Nat
  | a :: b :: rest => encodeTwoBytes a b ++ Encode rest
  | [a] => encodeSingleByte a
  | [] => []

/-- decodeTwoBytes of the RFC 9285 implementation: looks up the two
characters, computes val = c + d*45, rejects val > 255 (math.MaxUint8)
with ErrInvalidEncodedDataOverflow, and otherwise writes byte(val). -/
def decodeTwoBytes (s0 s1 : Nat) : Except Base45Error Nat :=
  if indexByte Alphabet s0 + indexByte Alphabet s1 * 45 > 255 then
    .error ErrInvalidEncodedDataOverflow
  else
    .ok ((indexByte Alphabet s0 + indexByte Alphabet s1 * 45) % 256).toNat

/-- decodeThreeBytes of the RFC 9285 implementation: looks up the three
characters, computes val = c + d*45 + e*45*45, rejects val > 65535
(math.MaxUint16) with ErrInvalidEncodedDataOverflow, and otherwise writes
the two bytes of uint16(val) big-endian into dst. -/
def decodeThreeBytes (s0 s1 s2 : Nat) : Except Base45Error (Nat × Nat) :=
  if indexByte Alphabet s0 + indexByte Alphabet s1 * 45 +
      indexByte Alphabet s2 * 45 * 45 > 65535 then
    .error ErrInvalidEncodedDataOverflow
  else
    .ok ⟨((indexByte Alphabet s0 + indexByte Alphabet s1 * 45 +
            indexByte Alphabet s2 * 45 * 45) % 65536).toNat / 256,
         ((indexByte Alphabet s0 + indexByte Alphabet s1 * 45 +
            indexByte Alphabet s2 * 45 * 45) % 65536).toNat % 256⟩

/-- The chunk loop of the RFC 9285 Decode: reads chunks of up to three
characters, writing decoded bytes into the output buffer at offset
`written`; the accumulator `out` is the contents out[0:written].  A chunk
of three appends two bytes, a final chunk of two appends one byte, and the
loop breaks on a short read, returning out[:written]. -/
def decodeLoop : List Nat → List Nat → Except Base45Error (List Nat)
  | s0 :: s1 :: s2 :: rest, out =>
    match decodeThreeBytes s0 s1 s2 with
    | .error e => .error e
    | .ok ⟨b0, b1⟩ => decodeLoop rest (out ++ [b0, b1])
  | [s0, s1], out =>
    match decodeTwoBytes s0 s1 with
    | .error e => .error e
    | .ok b => .ok (out ++ [b])
  | [_], out => .ok out
  | [], out => .ok out

/-- Decode of the RFC 9285 implementation: rejects empty input with
ErrEmptyInput; rejects any character outside the Alphabet with
ErrInvalidEncodingCharacters (the loop over the whole input comes before
the length check); rejects lengths with len%3 != 0 and (len+1)%3 != 0 with
ErrInvalidLength; then runs the chunk loop. -/
def Decode (l : List Nat) : Except Base45Error (List Nat) :=
  if l.length = 0 then .error ErrEmptyInput
  else if l.all (fun v => Alphabet.contains v) = false then
    .error ErrInvalidEncodingCharacters
  else if l.length % 3 ≠ 0 ∧ (l.length + 1) % 3 ≠ 0 then
    .error ErrInvalidLength
  else decodeLoop l []

/-- decodeTwoBytes of the draft-faltstrom-base45-07 implementation:
same lookup and overflow check, but returns the byte instead of writing
into a destination slice. -/
def decodeTwoBytesDraft (s0 s1 : Nat) : Except Base45Error Nat :=
  if indexByte Alphabet s0 + indexByte Alphabet s1 * 45 > 255 then
    .error ErrInvalidEncodedDataOverflow
  else
    .ok ((indexByte Alphabet s0 + indexByte Alphabet s1 * 45) % 256).toNat

/-- decodeThreeBytes of the draft-faltstrom-base45-07 implementation:
same lookup and overflow check, but allocates and returns a fresh
two-byte big-endian slice. -/
def decodeThreeBytesDraft (s0 s1 s2 : Nat) : Except Base45Error (List Nat) :=
  if indexByte Alphabet s0 + indexByte Alphabet s1 * 45 +
      indexByte Alphabet s2 * 45 * 45 > 65535 then
    .error ErrInvalidEncodedDataOverflow
  else
    .ok [((indexByte Alphabet s0 + indexByte Alphabet s1 * 45 +
            indexByte Alphabet s2 * 45 * 45) % 65536).toNat / 256,
         ((indexByte Alphabet s0 + indexByte Alphabet s1 * 45 +
            indexByte Alphabet s2 * 45 * 45) % 65536).toNat % 256]

/-- The chunk loop of the draft implementation: reads chunks of up to three
characters and appends the decoded bytes to the output, propagating the
first chunk error and discarding all partially appended output. -/
def decodeChunksDraft : List Nat → Except Base45Error (List Nat)
  | s0 :: s1 :: s2 :: rest =>
    match decodeThreeBytesDraft s0 s1 s2 with
    | .error e => .error e
    | .ok dec =>
      match decodeChunksDraft rest with
      | .error e => .error e
      | .ok r => .ok (dec ++ r)
  | [s0, s1] =>
    match decodeTwoBytesDraft s0 s1 with
    | .error e => .error e
    | .ok b => .ok [b]
  | [_] => .ok []
  | [] => .ok []

/-- Decode of the draft-faltstrom-base45-07 implementation: the same three
validation steps in the same order, then the append-style chunk loop. -/
def DecodeDraft (l : List Nat) : Except Base45Error (List Nat) :=
  if l.length = 0 then .error ErrEmptyInput
  else if l.all (fun v => Alphabet.contains v) = false then
    .error ErrInvalidEncodingCharacters
  else if l.length % 3 ≠ 0 ∧ (l.length + 1) % 3 ≠ 0 then
    .error ErrInvalidLength
  else decodeChunksDraft l

/-- encodeSingleByte of the draft implementation (textually identical to the
RFC 9285 one). -/
def encodeSingleByteDraft (a : Nat) : List Nat :=
  [Alphabet.getD (a % 45) 0, Alphabet.getD (a / 45 % 45) 0]

/-- encodeTwoBytes of the draft implementation (textually identical to the
RFC 9285 one). -/
def encodeTwoBytesDraft (a b : Nat) : List Nat :=
  [Alphabet.getD ((a * 256 + b) % 45) 0,
   Alphabet.getD ((a * 256 + b) / 45 % 45) 0,
   Alphabet.getD ((a * 256 + b) / (45 * 45) % 45) 0]

/-- Encode of the draft implementation (textually identical to the RFC 9285
one). -/
def EncodeDraft : List Nat → List Nat
  | a :: b :: rest => encodeTwoBytesDraft a b ++ EncodeDraft rest
  | [a] => encodeSingleByteDraft a
  | [] => []

/-- Modelled from the spec: whether a character needs no percent-escaping.
The percent-encode primitive the wrapper consumes comes from the net/url
package, which is not part of this repository; the spec describes it as a
primitive that maps arbitrary byte sequences to a URL-safe text
representation losslessly.  Unreserved characters (ASCII digits, letters,
hyphen, dot, underscore, tilde) stay as they are; everything else is
escaped. -/
def isUnreserved (c : Nat) : Bool :=
  decide (48 ≤ c ∧ c ≤ 57) || decide (65 ≤ c ∧ c ≤ 90) ||
  decide (97 ≤ c ∧ c ≤ 122) ||
  decide (c = 45) || decide (c = 46) || decide (c = 95) || decide (c = 126)

/-- Modelled from the spec: the upper-case hexadecimal digit character for a
value below 16, used by the percent-escape of the external percent-encode
primitive. -/
def hexDigit (n : Nat) : Nat :=
  if n < 10 then 48 + n else 55 + n

/-- Modelled from the spec: the value of a hexadecimal digit character, or
none; used by the external percent-decode primitive when reading an escape
sequence. -/
def unhex (c : Nat) : Option Nat :=
  if 48 ≤ c ∧ c ≤ 57 then some (c - 48)
  else if 65 ≤ c ∧ c ≤ 70 then some (c - 55)
  else if 97 ≤ c ∧ c ≤ 102 then some (c - 87)
  else none

/-- Modelled from the spec: the percent-encode primitive consumed by
EncodeURLSafe (net/url, not part of this repository).  Each unreserved
character is kept; every other byte becomes a percent sign (37) followed by
two upper-case hexadecimal digit characters. -/
def percentEncode : List Nat → List Nat
  | [] => []
  | c :: rest =>
    if isUnreserved c then c :: percentEncode rest
    else 37 :: hexDigit (c / 16) :: hexDigit (c % 16) :: percentEncode rest

/-- Modelled from the spec: the percent-decode primitive consumed by
DecodeURLSafe (net/url, not part of this repository).  It is the exact
inverse of the percent-encode primitive and reports a distinguishable
failure (none) on malformed escape sequences, e.g. a trailing percent sign
not followed by two hexadecimal digits. -/
def percentDecode : List Nat → Option (List Nat)
  | [] => some []
  | c :: rest =>
    if c = 37 then
      match rest with
      | h :: lo :: rest2 =>
        match unhex h, unhex lo, percentDecode rest2 with
        | some hv, some lv, some r => some ((hv * 16 + lv) :: r)
        | _, _, _ => none
      | _ => none
    else
      match percentDecode rest with
      | some r => some (c :: r)
      | none => none

/-- EncodeURLSafe encodes the given bytes to a query safe string: the
base 45 encoding followed by percent-encoding of the resulting text. -/
def EncodeURLSafe (l : List Nat) : List Nat :=
  percentEncode (Encode l)

/-- DecodeURLSafe reads the given url encoded base 45 encoded data and
returns the decoded bytes: it percent-decodes the input, failing with
ErrInvalidURLSafeEscaping when the unescaping fails, and otherwise returns
the result or error of Decode on the unescaped text unchanged. -/
def DecodeURLSafe (l : List Nat) : Except Base45Error (List Nat) :=
  match percentDecode l with
  | none => .error ErrInvalidURLSafeEscaping
  | some enc => Decode enc

/-- The ASCII codes of a string, used to state the known test vectors. -/
def asciiBytes (s : String) : List Nat :=
  s.data.map Char.toNat

/-- Whether some chunk of the input, split in chunks of three characters
with a trailing chunk of two, carries a base 45 value too large for its
byte group: a full chunk with c + d*45 + e*45*45 above 65535, or a trailing
two-character chunk with c + d*45 above 255. -/
def hasOverflowChunk : List Nat → Bool
  | s0 :: s1 :: s2 :: rest =>
    if indexByte Alphabet s0 + indexByte Alphabet s1 * 45 +
        indexByte Alphabet s2 * 45 * 45 > 65535 then true
    else hasOverflowChunk rest
  | [s0, s1] =>
    decide (indexByte Alphabet s0 + indexByte Alphabet s1 * 45 > 255)
  | _ => false

/-! Basic facts about the alphabet table, settled by evaluation. -/

theorem alphabet_getD_mem : ∀ k, k < 45 →
    Alphabet.contains (Alphabet.getD k 0) = true := by decide

theorem indexByte_getD : ∀ k, k < 45 →
    indexByte Alphabet (Alphabet.getD k 0) = (k : Int) := by decide

theorem mem_indexByte : ∀ s ∈ Alphabet,
    0 ≤ indexByte Alphabet s ∧ indexByte Alphabet s < 45 ∧
    Alphabet.getD (indexByte Alphabet s).toNat 0 = s := by decide

theorem alphabet_lt_256 : ∀ s ∈ Alphabet, s < 256 := by decide

/-! Induction principles following the chunked recursion of the loops. -/

theorem twoStepInduction {P : List Nat → Prop} (h0 : P []) (h1 : ∀ a, P [a])
    (h2 : ∀ a b rest, P rest → P (a :: b :: rest)) : ∀ l, P l
  | [] => h0
  | [a] => h1 a
  | a :: b :: rest => h2 a b rest (twoStepInduction h0 h1 h2 rest)

theorem threeStepInduction {P : List Nat → Prop} (h0 : P []) (h1 : ∀ a, P [a])
    (h2 : ∀ a b, P [a, b])
    (h3 : ∀ a b c rest, P rest → P (a :: b :: c :: rest)) : ∀ l, P l
  | [] => h0
  | [a] => h1 a
  | [a, b] => h2 a b
  | a :: b :: c :: rest => h3 a b c rest (threeStepInduction h0 h1 h2 h3 rest)

/-! Facts about Encode. -/

theorem encode_all_mem (l : List Nat) :
    (Encode l).all (fun ch => Alphabet.contains ch) = true := by
  induction l using twoStepInduction with
  | h0 => rfl
  | h1 a =>
    show (encodeSingleByte a).all _ = true
    simp only [encodeSingleByte, List.all_cons, List.all_nil, Bool.and_true]
    rw [alphabet_getD_mem _ (Nat.mod_lt _ (by norm_num)),
        alphabet_getD_mem _ (Nat.mod_lt _ (by norm_num))]
    rfl
  | h2 a b rest ih =>
    show (encodeTwoBytes a b ++ Encode rest).all _ = true
    rw [List.all_append, ih]
    simp only [encodeTwoBytes, List.all_cons, List.all_nil, Bool.and_true]
    rw [alphabet_getD_mem _ (Nat.mod_lt _ (by norm_num)),
        alphabet_getD_mem _ (Nat.mod_lt _ (by norm_num)),
        alphabet_getD_mem _ (Nat.mod_lt _ (by norm_num))]
    rfl

theorem encode_length (l : List Nat) :
    (Encode l).length = (l.length * 3 + 1) / 2 := by
  induction l using twoStepInduction with
  | h0 => rfl
  | h1 a =>
    show (encodeSingleByte a).length = _
    simp [encodeSingleByte]
  | h2 a b rest ih =>
    show (encodeTwoBytes a b ++ Encode rest).length = _
    rw [List.length_append, ih]
    simp only [encodeTwoBytes, List.length_cons, List.length_nil]
    omega

theorem encode_lt_256 (l : List Nat) : ∀ c ∈ Encode l, c < 256 := by
  intro c hc
  have h1 := List.all_eq_true.mp (encode_all_mem l) c hc
  have h2 : c ∈ Alphabet := by simpa using h1
  exact alphabet_lt_256 c h2

/-! Step equations for the chunk loops. -/

theorem decodeChunksDraft_cons3 (s0 s1 s2 : Nat) (r : List Nat) :
    decodeChunksDraft (s0 :: s1 :: s2 :: r) =
      match decodeThreeBytesDraft s0 s1 s2 with
      | .error e => .error e
      | .ok dec =>
        match decodeChunksDraft r with
        | .error e => .error e
        | .ok rr => .ok (dec ++ rr) := rfl

theorem decodeChunksDraft_two (s0 s1 : Nat) :
    decodeChunksDraft [s0, s1] =
      match decodeTwoBytesDraft s0 s1 with
      | .error e => .error e
      | .ok b => .ok [b] := rfl

theorem decodeLoop_cons3 (s0 s1 s2 : Nat) (r out : List Nat) :
    decodeLoop (s0 :: s1 :: s2 :: r) out =
      match decodeThreeBytes s0 s1 s2 with
      | .error e => .error e
      | .ok ⟨b0, b1⟩ => decodeLoop r (out ++ [b0, b1]) := rfl

theorem decodeLoop_two (s0 s1 : Nat) (out : List Nat) :
    decodeLoop [s0, s1] out =
      match decodeTwoBytes s0 s1 with
      | .error e => .error e
      | .ok b => .ok (out ++ [b]) := rfl

theorem decodeTwoBytes_eq_draft (s0 s1 : Nat) :
    decodeTwoBytesDraft s0 s1 = decodeTwoBytes s0 s1 := rfl

theorem decodeThreeBytes_eq_draft (s0 s1 s2 : Nat) :
    decodeThreeBytesDraft s0 s1 s2 =
      Except.map (fun p => [p.1, p.2]) (decodeThreeBytes s0 s1 s2) := by
  unfold decodeThreeBytes decodeThreeBytesDraft
  split <;> rfl

/-! Decoding the characters Encode produced gives back the bytes. -/

theorem decodeTwoBytesDraft_encode (a : Nat) (h : a < 256) :
    decodeTwoBytesDraft (Alphabet.getD (a % 45) 0)
      (Alphabet.getD (a / 45 % 45) 0) = .ok a := by
  unfold decodeTwoBytesDraft
  rw [indexByte_getD _ (Nat.mod_lt _ (by norm_num)),
      indexByte_getD _ (Nat.mod_lt _ (by norm_num))]
  have hv : ((a % 45 : Nat) : Int) + ((a / 45 % 45 : Nat) : Int) * 45 = (a : Int) := by
    omega
  rw [hv, if_neg (by omega)]
  have h1 : ((a : Int) % 256).toNat = a := by omega
  rw [h1]

theorem decodeThreeBytesDraft_encode (n : Nat) (h : n < 65536) :
    decodeThreeBytesDraft (Alphabet.getD (n % 45) 0)
      (Alphabet.getD (n / 45 % 45) 0)
      (Alphabet.getD (n / (45 * 45) % 45) 0) = .ok [n / 256, n % 256] := by
  unfold decodeThreeBytesDraft
  rw [indexByte_getD _ (Nat.mod_lt _ (by norm_num)),
      indexByte_getD _ (Nat.mod_lt _ (by norm_num)),
      indexByte_getD _ (Nat.mod_lt _ (by norm_num))]
  have hv : ((n % 45 : Nat) : Int) + ((n / 45 % 45 : Nat) : Int) * 45 +
      ((n / (45 * 45) % 45 : Nat) : Int) * 45 * 45 = (n : Int) := by
    omega
  rw [hv, if_neg (by omega)]
  have h1 : ((n : Int) % 65536).toNat = n := by omega
  rw [h1]

theorem decodeChunksDraft_encode : ∀ l, (∀ x ∈ l, x < 256) →
    decodeChunksDraft (Encode l) = .ok l := by
  intro l
  induction l using twoStepInduction with
  | h0 => intro _; rfl
  | h1 a =>
    intro hb
    have ha : a < 256 := hb a (by simp)
    show decodeChunksDraft (encodeSingleByte a) = .ok [a]
    rw [show encodeSingleByte a =
        [Alphabet.getD (a % 45) 0, Alphabet.getD (a / 45 % 45) 0] from rfl,
      decodeChunksDraft_two, decodeTwoBytesDraft_encode a ha]
  | h2 a b rest ih =>
    intro hb
    have ha : a < 256 := hb a (by simp)
    have hbb : b < 256 := hb b (by simp)
    have hrest : ∀ x ∈ rest, x < 256 := fun x hx => hb x (by simp [hx])
    have hn : a * 256 + b < 65536 := by omega
    show decodeChunksDraft (encodeTwoBytes a b ++ Encode rest) = .ok (a :: b :: rest)
    rw [show encodeTwoBytes a b ++ Encode rest =
        Alphabet.getD ((a * 256 + b) % 45) 0 ::
        Alphabet.getD ((a * 256 + b) / 45 % 45) 0 ::
        Alphabet.getD ((a * 256 + b) / (45 * 45) % 45) 0 :: Encode rest from rfl,
      decodeChunksDraft_cons3, decodeThreeBytesDraft_encode _ hn, ih hrest]
    have e1 : (a * 256 + b) / 256 = a := by omega
    have e2 : (a * 256 + b) % 256 = b := by omega
    rw [e1, e2]
    rfl

/-! The two chunk loops are equivalent. -/

theorem decodeLoop_eq_chunks : ∀ l out, decodeLoop l out =
    Except.map (fun r => out ++ r) (decodeChunksDraft l) := by
  intro l
  induction l using threeStepInduction with
  | h0 => intro out; simp [decodeLoop, decodeChunksDraft, Except.map]
  | h1 a => intro out; simp [decodeLoop, decodeChunksDraft, Except.map]
  | h2 a b =>
    intro out
    rw [decodeLoop_two, decodeChunksDraft_two, ← decodeTwoBytes_eq_draft]
    cases decodeTwoBytesDraft a b <;> rfl
  | h3 a b c rest ih =>
    intro out
    rw [decodeLoop_cons3, decodeChunksDraft_cons3, decodeThreeBytes_eq_draft]
    cases hd : decodeThreeBytes a b c with
    | error e => rfl
    | ok p =>
      obtain ⟨p1, p2⟩ := p
      show decodeLoop rest (out ++ [p1, p2]) = _
      rw [ih]
      cases hr : decodeChunksDraft rest <;> simp [Except.map]

/-- The two Decode entry points agree; the only difference between the two
implementations of the loop is the buffer handling. -/
theorem decode_eq_decodeDraft (l : List Nat) : Decode l = DecodeDraft l := by
  unfold Decode DecodeDraft
  split_ifs
  · rfl
  · rfl
  · rfl
  · rw [decodeLoop_eq_chunks]
    cases decodeChunksDraft l <;> simp [Except.map]

/-! Error classification of the chunk decoding. -/

theorem decodeTwoBytesDraft_error (s0 s1 : Nat) (e : Base45Error)
    (h : decodeTwoBytesDraft s0 s1 = .error e) :
    e = ErrInvalidEncodedDataOverflow := by
  unfold decodeTwoBytesDraft at h
  split at h
  · injection h with h1
    exact h1.symm
  · cases h

theorem decodeThreeBytesDraft_error (s0 s1 s2 : Nat) (e : Base45Error)
    (h : decodeThreeBytesDraft s0 s1 s2 = .error e) :
    e = ErrInvalidEncodedDataOverflow := by
  unfold decodeThreeBytesDraft at h
  split at h
  · injection h with h1
    exact h1.symm
  · cases h

theorem decodeChunksDraft_error : ∀ l e, decodeChunksDraft l = .error e →
    e = ErrInvalidEncodedDataOverflow := by
  intro l
  induction l using threeStepInduction with
  | h0 => intro e h; cases h
  | h1 a => intro e h; cases h
  | h2 a b =>
    intro e h
    rw [decodeChunksDraft_two] at h
    cases hd : decodeTwoBytesDraft a b with
    | error e2 =>
      rw [hd] at h
      injection h with h1
      rw [← h1]
      exact decodeTwoBytesDraft_error a b e2 hd
    | ok v => rw [hd] at h; cases h
  | h3 a b c rest ih =>
    intro e h
    rw [decodeChunksDraft_cons3] at h
    cases hd : decodeThreeBytesDraft a b c with
    | error e2 =>
      rw [hd] at h
      injection h with h1
      rw [← h1]
      exact decodeThreeBytesDraft_error a b c e2 hd
    | ok dec =>
      rw [hd] at h
      cases hr : decodeChunksDraft rest with
      | error e3 =>
        rw [hr] at h
        injection h with h1
        rw [← h1]
        exact ih e3 hr
      | ok r => rw [hr] at h; cases h

/-- On structurally valid input, Decode is the chunk decoding. -/
theorem Decode_valid (l : List Nat) (hne : l.length ≠ 0)
    (hall : l.all (fun v => Alphabet.contains v) = true)
    (hlen : l.length % 3 ≠ 1) :
    Decode l = decodeChunksDraft l := by
  unfold Decode
  rw [if_neg hne, if_neg (by rw [hall]; simp), if_neg (by omega), decodeLoop_eq_chunks]
  cases decodeChunksDraft l <;> simp [Except.map]

/-- The full round trip, shared by the plain and the URL-safe claims. -/
theorem decode_encode_aux (l : List Nat) (hne : l ≠ []) (hb : ∀ x ∈ l, x < 256) :
    Decode (Encode l) = .ok l := by
  have hpos : 0 < l.length := List.length_pos.mpr hne
  have hlen0 : (Encode l).length ≠ 0 := by rw [encode_length]; omega
  have hlen1 : (Encode l).length % 3 ≠ 1 := by rw [encode_length]; omega
  rw [Decode_valid _ hlen0 (encode_all_mem l) hlen1]
  exact decodeChunksDraft_encode l hb

/-! The percent-encode and percent-decode primitives of the URL-safe
wrapper invert each other. -/

theorem percentEncode_cons (c : Nat) (rest : List Nat) :
    percentEncode (c :: rest) =
      if isUnreserved c then c :: percentEncode rest
      else 37 :: hexDigit (c / 16) :: hexDigit (c % 16) :: percentEncode rest := rfl

theorem percentDecode_escape (h lo : Nat) (rest2 : List Nat) :
    percentDecode (37 :: h :: lo :: rest2) =
      match unhex h, unhex lo, percentDecode rest2 with
      | some hv, some lv, some r => some ((hv * 16 + lv) :: r)
      | _, _, _ => none := rfl

theorem percentDecode_other (c : Nat) (rest : List Nat) (hc : c ≠ 37) :
    percentDecode (c :: rest) =
      match percentDecode rest with
      | some r => some (c :: r)
      | none => none := by
  rw [percentDecode.eq_def]
  exact if_neg hc

theorem unhex_hexDigit : ∀ k, k < 16 → unhex (hexDigit k) = some k := by decide

theorem isUnreserved_ne_37 (c : Nat) (h : isUnreserved c = true) : c ≠ 37 := by
  intro hc
  subst hc
  exact absurd h (by decide)

theorem percentDecode_percentEncode : ∀ s, (∀ c ∈ s, c < 256) →
    percentDecode (percentEncode s) = some s := by
  intro s
  induction s with
  | nil => intro _; rfl
  | cons c rest ih =>
    intro hb
    have hc : c < 256 := hb c (by simp)
    have hrest : ∀ x ∈ rest, x < 256 := fun x hx => hb x (by simp [hx])
    rw [percentEncode_cons]
    by_cases hu : isUnreserved c = true
    · rw [if_pos hu, percentDecode_other c _ (isUnreserved_ne_37 c hu), ih hrest]
    · rw [if_neg hu, percentDecode_escape,
        unhex_hexDigit _ (by omega), unhex_hexDigit _ (by omega), ih hrest]
      show some ((c / 16 * 16 + c % 16) :: rest) = some (c :: rest)
      have hcc : c / 16 * 16 + c % 16 = c := by omega
      rw [hcc]

/-! Re-encoding the bytes an accepted chunk decoded gives the chunk back. -/

theorem mem_indexByte_nat (s : Nat) (hs : s ∈ Alphabet) : ∃ k : Nat, k < 45 ∧
    indexByte Alphabet s = (k : Int) ∧ Alphabet.getD k 0 = s := by
  obtain ⟨m0, m1, m2⟩ := mem_indexByte s hs
  exact ⟨(indexByte Alphabet s).toNat, by omega, by omega, m2⟩

theorem toNat_emod2 (c0 c1 : Nat)
    (hcond : ¬((c0 : Int) + (c1 : Int) * 45 > 255)) :
    (((c0 : Int) + (c1 : Int) * 45) % 256).toNat = c0 + c1 * 45 := by omega

theorem toNat_emod3 (c0 c1 c2 : Nat)
    (hcond : ¬((c0 : Int) + (c1 : Int) * 45 + (c2 : Int) * 45 * 45 > 65535)) :
    (((c0 : Int) + (c1 : Int) * 45 + (c2 : Int) * 45 * 45) % 65536).toNat =
      c0 + c1 * 45 + c2 * 45 * 45 := by omega

theorem digits2_recompose (c0 c1 : Nat) (h0 : c0 < 45) (h1 : c1 < 45) :
    (c0 + c1 * 45) % 45 = c0 ∧ (c0 + c1 * 45) / 45 % 45 = c1 := by
  constructor <;> omega

theorem digits3_recompose (c0 c1 c2 : Nat) (h0 : c0 < 45) (h1 : c1 < 45)
    (h2 : c2 < 45) :
    (c0 + c1 * 45 + c2 * 45 * 45) % 45 = c0 ∧
    (c0 + c1 * 45 + c2 * 45 * 45) / 45 % 45 = c1 ∧
    (c0 + c1 * 45 + c2 * 45 * 45) / (45 * 45) % 45 = c2 := by
  refine ⟨?_, ?_, ?_⟩ <;> omega

theorem divmod_recompose (n : Nat) : n / 256 * 256 + n % 256 = n := by omega

theorem encode_decodeChunksDraft : ∀ x, ∀ b : List Nat,
    x.all (fun v => Alphabet.contains v) = true →
    x.length % 3 ≠ 1 → decodeChunksDraft x = .ok b → Encode b = x := by
  intro x
  induction x using threeStepInduction with
  | h0 =>
    intro b _ _ h
    injection h with h1
    rw [← h1]
    rfl
  | h1 a =>
    intro b _ hlen _
    exact absurd (by simp) hlen
  | h2 s0 s1 =>
    intro b hall hlen h
    simp only [List.all_cons, List.all_nil, Bool.and_true, Bool.and_eq_true] at hall
    obtain ⟨h0c, h1c⟩ := hall
    obtain ⟨c0, hc0, e0, g0⟩ := mem_indexByte_nat s0 (by simpa using h0c)
    obtain ⟨c1, hc1, e1, g1⟩ := mem_indexByte_nat s1 (by simpa using h1c)
    rw [decodeChunksDraft_two] at h
    unfold decodeTwoBytesDraft at h
    rw [e0, e1] at h
    by_cases hcond : (c0 : Int) + (c1 : Int) * 45 > 255
    · rw [if_pos hcond] at h
      simp at h
    · rw [if_neg hcond] at h
      rw [toNat_emod2 c0 c1 hcond] at h
      have h' : Except.ok (ε := Base45Error) [c0 + c1 * 45] = .ok b := h
      injection h' with h1
      rw [← h1]
      show encodeSingleByte (c0 + c1 * 45) = [s0, s1]
      unfold encodeSingleByte
      obtain ⟨d0, d1⟩ := digits2_recompose c0 c1 hc0 hc1
      rw [d0, d1, g0, g1]
  | h3 s0 s1 s2 rest ih =>
    intro b hall hlen h
    simp only [List.all_cons, Bool.and_eq_true] at hall
    obtain ⟨h0c, h1c, h2c, hrestall⟩ := hall
    obtain ⟨c0, hc0, e0, g0⟩ := mem_indexByte_nat s0 (by simpa using h0c)
    obtain ⟨c1, hc1, e1, g1⟩ := mem_indexByte_nat s1 (by simpa using h1c)
    obtain ⟨c2, hc2, e2, g2⟩ := mem_indexByte_nat s2 (by simpa using h2c)
    rw [decodeChunksDraft_cons3] at h
    unfold decodeThreeBytesDraft at h
    rw [e0, e1, e2] at h
    by_cases hcond : (c0 : Int) + (c1 : Int) * 45 + (c2 : Int) * 45 * 45 > 65535
    · rw [if_pos hcond] at h
      simp at h
    · rw [if_neg hcond] at h
      rw [toNat_emod3 c0 c1 c2 hcond] at h
      cases hr : decodeChunksDraft rest with
      | error e =>
        rw [hr] at h
        have h' : (Except.error e : Except Base45Error (List Nat)) = .ok b := h
        exact Except.noConfusion h'
      | ok r =>
        rw [hr] at h
        have h' : Except.ok (ε := Base45Error)
            ((c0 + c1 * 45 + c2 * 45 * 45) / 256 ::
             (c0 + c1 * 45 + c2 * 45 * 45) % 256 :: r) = .ok b := h
        injection h' with h1
        have hlenr : rest.length % 3 ≠ 1 := by
          simp only [List.length_cons] at hlen ⊢
          omega
        have ihr := ih r hrestall hlenr hr
        rw [← h1]
        show encodeTwoBytes ((c0 + c1 * 45 + c2 * 45 * 45) / 256)
            ((c0 + c1 * 45 + c2 * 45 * 45) % 256) ++ Encode r = _
        rw [ihr]
        unfold encodeTwoBytes
        rw [divmod_recompose (c0 + c1 * 45 + c2 * 45 * 45)]
        obtain ⟨d0, d1, d2⟩ := digits3_recompose c0 c1 c2 hc0 hc1 hc2
        rw [d0, d1, d2, g0, g1, g2]
        rfl

/-! Any overflowing chunk makes the chunk decoding fail with the overflow
error. -/

theorem hasOverflowChunk_cons3 (a b c : Nat) (rest : List Nat) :
    hasOverflowChunk (a :: b :: c :: rest) =
      if indexByte Alphabet a + indexByte Alphabet b * 45 +
          indexByte Alphabet c * 45 * 45 > 65535 then true
      else hasOverflowChunk rest := rfl

theorem decodeChunksDraft_overflow : ∀ l, hasOverflowChunk l = true →
    decodeChunksDraft l = .error ErrInvalidEncodedDataOverflow := by
  intro l
  induction l using threeStepInduction with
  | h0 => intro h; exact absurd h (by decide)
  | h1 a => intro h; exact absurd h (by simp [hasOverflowChunk])
  | h2 a b =>
    intro h
    rw [decodeChunksDraft_two]
    unfold decodeTwoBytesDraft
    rw [if_pos (of_decide_eq_true (show decide (indexByte Alphabet a +
      indexByte Alphabet b * 45 > 255) = true from h))]
  | h3 a b c rest ih =>
    intro h
    rw [decodeChunksDraft_cons3]
    unfold decodeThreeBytesDraft
    by_cases hcond : indexByte Alphabet a + indexByte Alphabet b * 45 +
        indexByte Alphabet c * 45 * 45 > 65535
    · rw [if_pos hcond]
    · rw [if_neg hcond]
      have hrest : hasOverflowChunk rest = true := by
        rwa [hasOverflowChunk_cons3, if_neg hcond] at h
      rw [ih hrest]


/-! ## The claims -/

/-- C1, counterexample: the claim quantifies over every byte sequence,
including the empty one, but Decode of the encoding of the empty sequence
fails with ErrEmptyInput instead of succeeding with the empty sequence. -/
theorem c1_counterexample :
    Decode (Encode []) = .error ErrEmptyInput ∧ Decode (Encode []) ≠ .ok [] := by
  refine ⟨rfl, ?_⟩
  intro h
  rw [show Decode (Encode []) = .error ErrEmptyInput from rfl] at h
  exact Except.noConfusion h

/-- C1 (amended): for every non-empty byte sequence b (1-byte, even-length
and odd-length alike), Decode (Encode b) succeeds and returns b; the empty
sequence encodes to the empty string, which Decode rejects with
ErrEmptyInput. -/
theorem c1_roundtrip (l : List Nat) (hne : l ≠ []) (hb : ∀ x ∈ l, x < 256) :
    Decode (Encode l) = .ok l :=
  decode_encode_aux l hne hb

/-- C1 witness: the round trip at a concrete odd-length input. -/
theorem c1_roundtrip_witness : Decode (Encode [0, 1, 255]) = .ok [0, 1, 255] :=
  c1_roundtrip [0, 1, 255] (by decide) (by decide)

/-- C2, counterexample: as with the plain round trip, the URL-safe round
trip fails on the empty sequence, with ErrEmptyInput. -/
theorem c2_counterexample :
    DecodeURLSafe (EncodeURLSafe []) = .error ErrEmptyInput ∧
    DecodeURLSafe (EncodeURLSafe []) ≠ .ok [] := by
  refine ⟨rfl, ?_⟩
  intro h
  rw [show DecodeURLSafe (EncodeURLSafe []) = .error ErrEmptyInput from rfl] at h
  exact Except.noConfusion h

/-- C2 (amended): for every non-empty byte sequence b,
DecodeURLSafe (EncodeURLSafe b) succeeds and returns b, and the
percent-decoding step is the exact inverse of the percent-encoding step on
the string Encode produced. -/
theorem c2_roundtrip (l : List Nat) (hne : l ≠ []) (hb : ∀ x ∈ l, x < 256) :
    DecodeURLSafe (EncodeURLSafe l) = .ok l ∧
    percentDecode (percentEncode (Encode l)) = some (Encode l) := by
  have hpe : percentDecode (percentEncode (Encode l)) = some (Encode l) :=
    percentDecode_percentEncode (Encode l) (encode_lt_256 l)
  refine ⟨?_, hpe⟩
  unfold DecodeURLSafe EncodeURLSafe
  rw [hpe]
  exact decode_encode_aux l hne hb

/-- C2 witness: the URL-safe round trip at the bytes of "Hello!!". -/
theorem c2_roundtrip_witness :
    DecodeURLSafe (EncodeURLSafe [72, 101, 108, 108, 111, 33, 33]) =
      .ok [72, 101, 108, 108, 111, 33, 33] :=
  (c2_roundtrip [72, 101, 108, 108, 111, 33, 33] (by decide) (by decide)).1

/-- C3: Decode validates in a fixed order with a fixed error kind per
failure: empty input gives ErrEmptyInput; any character outside the
alphabet gives ErrInvalidEncodingCharacters, regardless of the length, so
the alphabet check takes precedence over the length check; a length
congruent to 1 modulo 3 gives ErrInvalidLength; an input passing all three
checks never returns any of these three errors. -/
theorem c3_validation :
    (Decode [] = .error ErrEmptyInput) ∧
    (∀ l : List Nat, l ≠ [] → l.all (fun v => Alphabet.contains v) = false →
      Decode l = .error ErrInvalidEncodingCharacters) ∧
    (∀ l : List Nat, l ≠ [] → l.all (fun v => Alphabet.contains v) = true →
      l.length % 3 = 1 → Decode l = .error ErrInvalidLength) ∧
    (∀ l : List Nat, l ≠ [] → l.all (fun v => Alphabet.contains v) = true →
      l.length % 3 ≠ 1 →
      Decode l ≠ .error ErrEmptyInput ∧
      Decode l ≠ .error ErrInvalidEncodingCharacters ∧
      Decode l ≠ .error ErrInvalidLength) := by
  refine ⟨rfl, ?_, ?_, ?_⟩
  · intro l hne hall
    unfold Decode
    rw [if_neg (fun h => hne (List.length_eq_zero.mp h)), if_pos hall]
  · intro l hne hall hlen
    unfold Decode
    rw [if_neg (fun h => hne (List.length_eq_zero.mp h)),
      if_neg (by rw [hall]; simp), if_pos (by omega)]
  · intro l hne hall hlen
    have hd := Decode_valid l (fun h => hne (List.length_eq_zero.mp h)) hall hlen
    refine ⟨?_, ?_, ?_⟩ <;>
    · intro hcontra
      rw [hd] at hcontra
      exact Base45Error.noConfusion (decodeChunksDraft_error l _ hcontra)

/-- C3 witness: the three non-empty cases at concrete inputs; the input of
four letters a tests the precedence of the alphabet check over the length
check. -/
theorem c3_validation_witness :
    Decode [97, 97, 97, 97] = .error ErrInvalidEncodingCharacters ∧
    Decode [66, 66, 66, 66] = .error ErrInvalidLength ∧
    Decode [71, 71, 87] ≠ .error ErrInvalidLength :=
  ⟨c3_validation.2.1 [97, 97, 97, 97] (by decide) (by decide),
   c3_validation.2.2.1 [66, 66, 66, 66] (by decide) (by decide) (by decide),
   (c3_validation.2.2.2 [71, 71, 87] (by decide) (by decide) (by decide)).2.2⟩

/-- C4: on input passing the structural validation, any chunk whose base 45
value exceeds its byte group (above 65535 for a full chunk, above 255 for a
trailing two-character chunk) makes Decode fail with
ErrInvalidEncodedDataOverflow and no partial output; concretely, FGW
decodes to the bytes 255 255 while GGW and two colons fail with
ErrInvalidEncodedDataOverflow. -/
theorem c4_overflow :
    (∀ l : List Nat, l ≠ [] → l.all (fun v => Alphabet.contains v) = true →
      l.length % 3 ≠ 1 → hasOverflowChunk l = true →
      Decode l = .error ErrInvalidEncodedDataOverflow) ∧
    Decode (asciiBytes "FGW") = .ok [255, 255] ∧
    Decode (asciiBytes "GGW") = .error ErrInvalidEncodedDataOverflow ∧
    Decode (asciiBytes "::") = .error ErrInvalidEncodedDataOverflow := by
  refine ⟨?_, rfl, rfl, rfl⟩
  intro l hne hall hlen hov
  rw [Decode_valid l (fun h => hne (List.length_eq_zero.mp h)) hall hlen]
  exact decodeChunksDraft_overflow l hov

/-- C4 witness: the general overflow statement applied to GGW. -/
theorem c4_overflow_witness :
    Decode [71, 71, 87] = .error ErrInvalidEncodedDataOverflow :=
  c4_overflow.1 [71, 71, 87] (by decide) (by decide) (by decide) (by decide)

/-- C5: Encode consumes bytes two at a time; a full pair (a, b) emits the
alphabet characters of the base 45 digits of n = a*256 + b, least
significant first; a trailing byte emits the two characters of its two
digits; the empty input gives empty output; and every emitted character is
a member of the Alphabet. -/
theorem c5_encode_chunks :
    (Encode [] = []) ∧
    (∀ a, Encode [a] =
      [Alphabet.getD (a % 45) 0, Alphabet.getD (a / 45 % 45) 0]) ∧
    (∀ a b rest, Encode (a :: b :: rest) =
      Alphabet.getD ((a * 256 + b) % 45) 0 ::
      Alphabet.getD ((a * 256 + b) / 45 % 45) 0 ::
      Alphabet.getD ((a * 256 + b) / 2025 % 45) 0 :: Encode rest) ∧
    (∀ l, (Encode l).all (fun ch => Alphabet.contains ch) = true) :=
  ⟨rfl, fun _ => rfl, fun _ _ _ => rfl, encode_all_mem⟩

/-- C6: the length of Encode b is exactly the ceiling of three halves of
the length of b (2k bytes give 3k characters, 2k+1 bytes give 3k+2), so it
is never congruent to 1 modulo 3. -/
theorem c6_length (l : List Nat) :
    (Encode l).length = (l.length * 3 + 1) / 2 ∧ (Encode l).length % 3 ≠ 1 :=
  ⟨encode_length l, by rw [encode_length]; omega⟩

/-- C7: the known vectors hold exactly, on the ASCII bytes of the quoted
strings. -/
theorem c7_vectors :
    Encode (asciiBytes "AB") = asciiBytes "BB8" ∧
    Decode (asciiBytes "BB8") = .ok (asciiBytes "AB") ∧
    Encode (asciiBytes "Hello!!") = asciiBytes "%69 VD92EX0" ∧
    Decode (asciiBytes "%69 VD92EX0") = .ok (asciiBytes "Hello!!") ∧
    Encode (asciiBytes "base-45") = asciiBytes "UJCLQE7W581" ∧
    Decode (asciiBytes "QED8WEX0") = .ok (asciiBytes "ietf!") ∧
    EncodeURLSafe (asciiBytes "Hello!!") = asciiBytes "%2569%20VD92EX0" ∧
    DecodeURLSafe (asciiBytes "%2569%20VD92EX0") = .ok (asciiBytes "Hello!!") :=
  ⟨rfl, rfl, rfl, rfl, rfl, rfl, rfl, rfl⟩

/-- C8: DecodeURLSafe of the empty string fails with ErrEmptyInput; any
input whose percent-decoding fails gives ErrInvalidURLSafeEscaping; any
other input gives exactly the result or error of Decode on the
percent-decoded text. -/
theorem c8_urlsafe :
    (DecodeURLSafe [] = .error ErrEmptyInput) ∧
    (∀ l, percentDecode l = none →
      DecodeURLSafe l = .error ErrInvalidURLSafeEscaping) ∧
    (∀ l s, percentDecode l = some s → DecodeURLSafe l = Decode s) := by
  refine ⟨rfl, fun l h => ?_, fun l s h => ?_⟩
  · unfold DecodeURLSafe
    rw [h]
  · unfold DecodeURLSafe
    rw [h]

/-- C8 witness: a trailing percent sign fails with
ErrInvalidURLSafeEscaping, and an escape-free input decodes exactly as
Decode does. -/
theorem c8_urlsafe_witness :
    DecodeURLSafe [37] = .error ErrInvalidURLSafeEscaping ∧
    DecodeURLSafe [66, 66, 56] = Decode [66, 66, 56] :=
  ⟨c8_urlsafe.2.1 [37] rfl, c8_urlsafe.2.2 [66, 66, 56] [66, 66, 56] rfl⟩

/-- C9: the two embedded implementations agree everywhere: the two Encode
functions return identical output, and the two Decode functions return the
same bytes on success and the same error on failure. -/
theorem c9_equivalence :
    (∀ l, Encode l = EncodeDraft l) ∧ (∀ l, Decode l = DecodeDraft l) := by
  constructor
  · intro l
    induction l using twoStepInduction with
    | h0 => rfl
    | h1 a => rfl
    | h2 a b rest ih =>
      show encodeTwoBytes a b ++ Encode rest =
        encodeTwoBytesDraft a b ++ EncodeDraft rest
      rw [ih]
      rfl
  · exact decode_eq_decodeDraft

/-- C10: every encoding Decode accepts is reproduced exactly by re-encoding
the decoded bytes. -/
theorem c10_encode_decode (x b : List Nat) (h : Decode x = .ok b) :
    Encode b = x := by
  unfold Decode at h
  by_cases h1 : x.length = 0
  · rw [if_pos h1] at h
    exact Except.noConfusion h
  · rw [if_neg h1] at h
    by_cases h2 : x.all (fun v => Alphabet.contains v) = false
    · rw [if_pos h2] at h
      exact Except.noConfusion h
    · rw [if_neg h2] at h
      have hall : x.all (fun v => Alphabet.contains v) = true := by
        cases hx : x.all (fun v => Alphabet.contains v)
        · exact absurd hx h2
        · rfl
      by_cases h3 : x.length % 3 ≠ 0 ∧ (x.length + 1) % 3 ≠ 0
      · rw [if_pos h3] at h
        exact Except.noConfusion h
      · rw [if_neg h3] at h
        rw [decodeLoop_eq_chunks] at h
        have hlen : x.length % 3 ≠ 1 := by omega
        cases hd : decodeChunksDraft x with
        | error e =>
          rw [hd] at h
          exact Except.noConfusion h
        | ok r =>
          rw [hd] at h
          have h' : Except.ok (ε := Base45Error) ([] ++ r) = .ok b := h
          injection h' with hrb
          rw [List.nil_append] at hrb
          rw [hrb] at hd
          exact encode_decodeChunksDraft x b hall hlen hd

/-- C10 witness: re-encoding the decoding of BB8 gives BB8 back. -/
theorem c10_encode_decode_witness : Encode [65, 66] = [66, 66, 56] :=
  c10_encode_decode [66, 66, 56] [65, 66] (by rfl)

end Base45
